import Mathlib

/-!
Verification of the best-subset regression search in `src/boston2.go`.

The program reads a housing dataset, then for every subset size from 4 to
`numExplanatory` spawns a goroutine that enumerates all feature subsets of
that size (`generateCombinations`), fits a regression per subset
(`fitModel`, built on the external `github.com/sajari/regression`
library), and keeps the subset with the smallest AIC under a strict `<`
comparison.  Results travel back to `main` over an unbuffered channel and
are printed as they arrive.

Embedding choices, faithful to the source:

* Go `float64` values are modelled by an arbitrary linear ordered field
  `α` (instantiated with `ℝ` or `ℚ` in the theorems); the IEEE special
  values that the program can actually produce (`+Inf` as the initial
  best AIC, `-Inf` from `math.Log 0`, `NaN`) are modelled by the wrapper
  type `FVal α`, and the `<` comparison on them by `flt`, which returns
  `false` whenever either side is a NaN, exactly as IEEE `<` does.
* The external regression library is not part of the repository; the
  trained model that `fitModel` queries through `r.Predict` enters the
  embedding as an abstract function `predict`, and `math.Log` as an
  abstract `log` (instantiated with `Real.log` where the claim needs it).
* `fitModel` (lines 120-162) is translated exactly as written: `xs` is
  built with one entry per selected FEATURE (each entry being the whole
  data column for that feature), and the training, MSE and AIC loops all
  range over `xs`, so the residual sum has `len(features)` terms pairing
  `y[i]` with the i-th selected column, and the divisor is
  `len(xs) = len(features)`, not the number of rows.
* Go indexing `y[i]` panics when out of range; that situation is not
  reached in the program (it would need more features than rows) and the
  embedding uses `getD` with default 0 there.
* The AIC expression `float64(len(xs))*math.Log(mse) + 2.0*float64(len(features))`
  is translated case by case under IEEE evaluation for a nonempty feature
  list: `mse > 0` gives the finite value, `mse = 0` gives `-Inf`
  (`math.Log 0 = -Inf`, and `k * -Inf + 2k = -Inf` for `k ≥ 1`), and
  `mse < 0` would give NaN (unreachable: the residual sum is a sum of
  squares).  The empty feature list (never produced by `main`, whose
  sizes start at 4) is where this translation is not IEEE-faithful, so
  the theorems that depend on it assume `features ≠ []`.
-/

/-- IEEE-style value space for the float64 quantities the program handles:
a finite value, the two infinities, or NaN. -/
inductive FVal (α : Type) where
  | nan : FVal α
  | negInf : FVal α
  | posInf : FVal α
  | fin : α → FVal α
deriving DecidableEq

/-- The Go `<` comparison on float64 as used in `aic < localBestAIC`
(line 83): any comparison involving NaN is false, `-Inf` is below every
non-NaN value except itself, `+Inf` is above every non-NaN value except
itself, and finite values compare by the order of `α`. -/
def flt [LinearOrder α] : FVal α → FVal α → Bool
  | FVal.nan, _ => false
  | _, FVal.nan => false
  | FVal.negInf, FVal.negInf => false
  | FVal.negInf, _ => true
  | _, FVal.negInf => false
  | FVal.posInf, _ => false
  | FVal.fin _, FVal.posInf => true
  | FVal.fin x, FVal.fin y => decide (x < y)

/-- The `result` struct of the source (lines 114-118). -/
structure result (α : Type) where
  Features : List ℕ
  AIC : FVal α
  MSE : α
deriving DecidableEq

/-- Embedding of `fitModel` (lines 120-162).  `log` stands for `math.Log`
and `predict` for the trained library model queried via `r.Predict`;
`r.SetVar` and `r.Train` only shape that model, so they are absorbed into
`predict`.  `r.Run()` is called with its error discarded, so there is no
failure path and the function always returns the pair `(mse, aic)`.
Note that `xs` gets one entry per feature (the whole column of that
feature), and the residual loop `for i, row := range xs` pairs `y[i]`
with `xs[i]` for `len(xs)` iterations; `y.zip xs` yields exactly those
pairs whenever `len(xs) ≤ len(y)`, which holds wherever the program
calls this (`y[i]` would panic otherwise). -/
def fitModel [LinearOrderedField α] (log : α → α) (predict : List α → α)
    (y : List α) (features : List ℕ) (data : List (List α)) : α × FVal α :=
  let xs : List (List α) := features.map (fun idx => data.map (fun row => row.getD idx 0))
  let f : α := (y.zip xs).foldl (fun acc p => acc + (p.1 - predict p.2) ^ 2) 0
  let mse : α := f / (xs.length : α)
  let aic : FVal α :=
    if mse = 0 then FVal.negInf
    else if mse < 0 then FVal.nan
    else FVal.fin ((xs.length : α) * log mse + 2 * (features.length : α))
  (mse, aic)

/-- One iteration of the worker goroutine's loop body (lines 80-88): fit
the subset and replace the running best exactly when `aic < localBestAIC`
under the float comparison. -/
def workerStep [LinearOrder α] (fitFn : List ℕ → α × FVal α)
    (best : result α) (features : List ℕ) : result α :=
  let mseAic := fitFn features
  if flt mseAic.2 best.AIC then
    { Features := features, AIC := mseAic.2, MSE := mseAic.1 }
  else best

/-- The whole worker goroutine body (lines 72-92): starting from
`localBestAIC = +Inf`, `localBestFeatures = nil`, `localBestMSE = 0`,
fold the loop body over the generated combinations; the resulting
`result` value is what the goroutine sends on the `results` channel
(exactly one send, unconditional). -/
def runWorker [LinearOrder α] [Zero α] (fitFn : List ℕ → α × FVal α)
    (combos : List (List ℕ)) : result α :=
  combos.foldl (workerStep fitFn) { Features := [], AIC := FVal.posInf, MSE := 0 }

/-- Embedding of the aggregation loop of `main` (lines 103-108): it
ranges over the `results` channel and prints each received `result`
verbatim; nothing is compared or merged, so the report is exactly the
arrival sequence. -/
def coordinatorReport (arrivals : List (result α)) : List (result α) := arrivals

/-- Embedding of `generateCombinationsHelper` (lines 170-181), with the
Go loop `for i := index; i < n; i++` rendered as `List.range' index (n - index)`.
At `k = 0` the source appends a copy of the shared buffer; the functional
reading returns the accumulated prefix directly. -/
def generateCombinationsHelper (n : ℕ) : ℕ → ℕ → List ℕ → List (List ℕ)
  | 0, _, combination => [combination]
  | k + 1, index, combination =>
      (List.range' index (n - index)).flatMap
        (fun i => generateCombinationsHelper n k (i + 1) (combination ++ [i]))

/-- Embedding of `generateCombinations` (lines 164-168). -/
def generateCombinations (n k : ℕ) : List (List ℕ) :=
  generateCombinationsHelper n k 0 []

/-- Strict lexicographic order on index lists, the order in which the
recursive generator emits subsets (used to state the ordering claims). -/
def lexLt : List ℕ → List ℕ → Bool
  | [], [] => false
  | [], _ :: _ => true
  | _ :: _, [] => false
  | a :: s, b :: t => if a < b then true else if b < a then false else lexLt s t

/-- Spec-side definition, following the spec words for claim C1 only:
MSE is the sum over the dataset rows of the squared residual between the
response and the fitted value, divided by the number of rows N.  It is
deliberately NOT the translation of the source, which is `fitModel`
above; the two are compared in the C1 theorems. -/
def mseSpec [LinearOrderedField α] (y yhat : List α) : α :=
  ((y.zip yhat).foldl (fun acc p => acc + (p.1 - p.2) ^ 2) 0) / (y.length : α)

/-- Events of the concurrency skeleton of `main` (lines 66-108) for `m`
workers: `transfer i` is the rendezvous on the unbuffered `results`
channel in which worker `i`'s send (line 91) completes together with the
coordinator's receive (line 104); `done i` is worker `i`'s deferred send
on the `done` channel (line 73), which executes only after the `results`
send returns; `closeCh` is `close(results)` (line 100), executed by the
collector goroutine after it has received all `m` done signals. -/
inductive Event where
  | transfer : ℕ → Event
  | done : ℕ → Event
  | closeCh : Event
deriving DecidableEq

/-- The execution traces the Go scheduler can produce for the skeleton
with `m` workers: each worker's transfer and done event happens exactly
once, the channel is closed exactly once, each worker's transfer precedes
its own done signal (program order inside the goroutine: the deferred
`done <-` runs after `results <-` completes), and every done signal
precedes the close (the collector receives all of them first). -/
def ValidTrace (m : ℕ) (t : List Event) : Prop :=
  (∀ i < m, t.count (Event.transfer i) = 1) ∧
  (∀ i < m, t.count (Event.done i) = 1) ∧
  t.count Event.closeCh = 1 ∧
  (∀ i < m, t.indexOf (Event.transfer i) < t.indexOf (Event.done i)) ∧
  (∀ i < m, t.indexOf (Event.done i) < t.indexOf Event.closeCh)

/-- The property claimed of the coordinator: no result is observable
before every worker has completed, i.e. every done signal precedes every
transfer in the trace. -/
def BarrierAggregation (m : ℕ) (t : List Event) : Prop :=
  ∀ i < m, ∀ j < m, t.indexOf (Event.done j) < t.indexOf (Event.transfer i)

/-! ## Helper lemmas about the generator and the float order -/

theorem lexLt_append_left (c s t : List ℕ) : lexLt (c ++ s) (c ++ t) = lexLt s t := by
  induction c with
  | nil => rfl
  | cons a c ih => simp [lexLt, lt_irrefl, ih]

theorem lexLt_irrefl (s : List ℕ) : lexLt s s = false := by
  induction s with
  | nil => rfl
  | cons a s ih => simp [lexLt, lt_irrefl, ih]

theorem gch_length (n : ℕ) :
    ∀ (k index : ℕ) (comb : List ℕ),
      (generateCombinationsHelper n k index comb).length = (n - index).choose k := by
  intro k
  induction k with
  | zero => intro index comb; simp [generateCombinationsHelper]
  | succ k ih =>
    suffices h : ∀ (m index : ℕ), n - index = m → ∀ comb : List ℕ,
        (generateCombinationsHelper n (k + 1) index comb).length = m.choose (k + 1) by
      intro index comb
      exact h (n - index) index rfl comb
    intro m
    induction m with
    | zero =>
      intro index hm comb
      simp [generateCombinationsHelper, hm]
    | succ m ihm =>
      intro index hm comb
      have hm1 : n - (index + 1) = m := by omega
      rw [generateCombinationsHelper, hm, List.range'_succ, List.flatMap_cons,
        List.length_append]
      have hrest : ((List.range' (index + 1) m).flatMap
            (fun i => generateCombinationsHelper n k (i + 1) (comb ++ [i]))).length
          = m.choose (k + 1) := by
        have := ihm (index + 1) hm1 comb
        rwa [generateCombinationsHelper, hm1] at this
      rw [ih (index + 1) (comb ++ [index]), hrest, hm1, Nat.choose_succ_succ]

theorem gch_mem (n : ℕ) :
    ∀ (k index : ℕ) (comb l : List ℕ), l ∈ generateCombinationsHelper n k index comb →
      ∃ s, l = comb ++ s ∧ s.length = k ∧ (∀ x ∈ s, index ≤ x ∧ x < n) ∧
        s.Pairwise (· < ·) := by
  intro k
  induction k with
  | zero =>
    intro index comb l hl
    refine ⟨[], ?_, rfl, by simp, by simp⟩
    simpa [generateCombinationsHelper] using hl
  | succ k ih =>
    intro index comb l hl
    rw [generateCombinationsHelper, List.mem_flatMap] at hl
    obtain ⟨i, hi, hl⟩ := hl
    rw [List.mem_range'_1] at hi
    obtain ⟨s', hs'e, hs'len, hs'bd, hs'pw⟩ := ih (i + 1) (comb ++ [i]) l hl
    refine ⟨i :: s', by simpa using hs'e, by simpa using hs'len, ?_, ?_⟩
    · intro x hx
      rcases List.mem_cons.1 hx with hx | hx
      · omega
      · have := hs'bd x hx
        omega
    · rw [List.pairwise_cons]
      exact ⟨fun x hx => by have := hs'bd x hx; omega, hs'pw⟩

theorem gch_pairwise_lex (n : ℕ) :
    ∀ (k index : ℕ) (comb : List ℕ),
      (generateCombinationsHelper n k index comb).Pairwise
        (fun a b => lexLt a b = true) := by
  intro k
  induction k with
  | zero => intro index comb; simp [generateCombinationsHelper]
  | succ k ih =>
    intro index comb
    rw [generateCombinationsHelper, List.pairwise_flatMap]
    constructor
    · intro i _hi
      exact ih (i + 1) (comb ++ [i])
    · refine List.Pairwise.imp ?_ (List.pairwise_lt_range' index (n - index))
      intro i j hij x hx y hy
      obtain ⟨s', hs'e, -, -, -⟩ := gch_mem n k (i + 1) (comb ++ [i]) x hx
      obtain ⟨t', ht'e, -, -, -⟩ := gch_mem n k (j + 1) (comb ++ [j]) y hy
      have hx' : x = comb ++ (i :: s') := by simpa using hs'e
      have hy' : y = comb ++ (j :: t') := by simpa using ht'e
      rw [hx', hy', lexLt_append_left]
      simp [lexLt, hij]

theorem gch_eq_nil (n : ℕ) :
    ∀ (k index : ℕ) (comb : List ℕ), n - index < k →
      generateCombinationsHelper n k index comb = [] := by
  intro k
  induction k with
  | zero => intro index comb h; omega
  | succ k ih =>
    intro index comb h
    rw [generateCombinationsHelper, List.flatMap_eq_nil_iff]
    intro i hi
    rw [List.mem_range'_1] at hi
    exact ih (i + 1) (comb ++ [i]) (by omega)

/-! ## Claim C4 -/

/-- C4: for all `n ≥ 1` and `1 ≤ k ≤ n`, `generateCombinations n k`
produces exactly `C(n,k)` subsets, each of length `k`, each element in
`[0, n)`, strictly increasing within each subset, with no subset
appearing twice, and the sequence of subsets in lexicographic order. -/
theorem generateCombinations_spec (n k : ℕ) (_hn : 1 ≤ n) (_hk : 1 ≤ k) (_hkn : k ≤ n) :
    (generateCombinations n k).length = n.choose k ∧
    (∀ l ∈ generateCombinations n k,
      l.length = k ∧ (∀ x ∈ l, x < n) ∧ l.Pairwise (· < ·)) ∧
    (generateCombinations n k).Pairwise (fun a b => lexLt a b = true) ∧
    (generateCombinations n k).Nodup := by
  refine ⟨?_, ?_, gch_pairwise_lex n k 0 [], ?_⟩
  · simpa [generateCombinations] using gch_length n k 0 []
  · intro l hl
    obtain ⟨s, he, hlen, hbd, hpw⟩ := gch_mem n k 0 [] l hl
    rw [List.nil_append] at he
    subst he
    exact ⟨hlen, fun x hx => (hbd x hx).2, hpw⟩
  · refine List.Pairwise.imp ?_ (gch_pairwise_lex n k 0 [])
    intro a b hab hEq
    rw [hEq, lexLt_irrefl] at hab
    exact Bool.false_ne_true hab

/-- Witness for C4 at `n = 3`, `k = 2`. -/
theorem generateCombinations_spec_witness :
    1 ≤ 3 ∧ 1 ≤ 2 ∧ 2 ≤ 3 ∧
    ((generateCombinations 3 2).length = Nat.choose 3 2 ∧
     (∀ l ∈ generateCombinations 3 2,
       l.length = 2 ∧ (∀ x ∈ l, x < 3) ∧ l.Pairwise (· < ·)) ∧
     (generateCombinations 3 2).Pairwise (fun a b => lexLt a b = true) ∧
     (generateCombinations 3 2).Nodup) :=
  ⟨by decide, by decide, by decide,
    generateCombinations_spec 3 2 (by decide) (by decide) (by decide)⟩

/-! ## Claim C10 -/

/-- C10: for every `n` and every `k > n`, `generateCombinations n k`
returns the empty sequence rather than failing. -/
theorem generateCombinations_gt_empty (n k : ℕ) (h : n < k) :
    generateCombinations n k = [] :=
  gch_eq_nil n k 0 [] (by omega)

/-- Witness for C10 at `n = 2`, `k = 3`. -/
theorem generateCombinations_gt_empty_witness :
    2 < 3 ∧ generateCombinations 2 3 = [] :=
  ⟨by decide, generateCombinations_gt_empty 2 3 (by decide)⟩

theorem flt_irrefl [LinearOrder α] (a : FVal α) : flt a a = false := by
  cases a <;> simp [flt]

theorem flt_trans [LinearOrder α] {a b c : FVal α}
    (hab : flt a b = true) (hbc : flt b c = true) : flt a c = true := by
  cases a <;> cases b <;> cases c <;> simp_all [flt]
  exact lt_trans hab hbc

theorem exists_flt_minimal [LinearOrder α] :
    ∀ l : List (FVal α), l ≠ [] → ∃ a ∈ l, ∀ b ∈ l, flt b a = false := by
  intro l
  induction l with
  | nil => simp
  | cons x l ih =>
    intro _hne
    rcases eq_or_ne l [] with rfl | hl
    · refine ⟨x, by simp, ?_⟩
      intro b hb
      rw [List.mem_singleton] at hb
      rw [hb]
      exact flt_irrefl x
    · obtain ⟨a, ha, hmin⟩ := ih hl
      by_cases hxa : flt x a = true
      · refine ⟨x, by simp, ?_⟩
        intro b hb
        rcases List.mem_cons.1 hb with rfl | hb
        · exact flt_irrefl b
        · by_contra hbx
          rw [Bool.not_eq_false] at hbx
          have := flt_trans hbx hxa
          rw [hmin b hb] at this
          exact Bool.false_ne_true this
      · refine ⟨a, List.mem_cons_of_mem x ha, ?_⟩
        intro b hb
        rcases List.mem_cons.1 hb with rfl | hb
        · rw [Bool.not_eq_true] at hxa
          exact hxa
        · exact hmin b hb

/-! ## Claim C8 -/

/-- C8: if no subset of the searched size produces a fit whose AIC
compares below the initial `+Inf` (in particular when every fit is the
non-comparable NaN outcome of a singular solve), the worker still
delivers exactly one result, the sentinel with `Features = nil`,
`AIC = +Inf`, `MSE = 0`. -/
theorem runWorker_sentinel [LinearOrder α] [Zero α] (fitFn : List ℕ → α × FVal α)
    (combos : List (List ℕ))
    (h : ∀ s ∈ combos, flt (fitFn s).2 FVal.posInf = false) :
    runWorker fitFn combos = { Features := [], AIC := FVal.posInf, MSE := 0 } := by
  rw [runWorker]
  induction combos with
  | nil => rfl
  | cons s rest ih =>
    rw [List.foldl_cons]
    have h1 : workerStep fitFn { Features := [], AIC := FVal.posInf, MSE := 0 } s
        = { Features := [], AIC := FVal.posInf, MSE := 0 } := by
      rw [workerStep]
      simp [h s (List.mem_cons_self s rest)]
    rw [h1]
    exact ih (fun t ht => h t (List.mem_cons_of_mem s ht))

/-- Witness for C8: every fit of the two size-1 subsets of two features
returns a NaN AIC, and the worker returns the sentinel. -/
theorem runWorker_sentinel_witness :
    (∀ s ∈ generateCombinations 2 1,
      flt ((fun _ : List ℕ => ((0 : ℚ), (FVal.nan : FVal ℚ))) s).2 FVal.posInf = false) ∧
    runWorker (fun _ : List ℕ => ((0 : ℚ), (FVal.nan : FVal ℚ))) (generateCombinations 2 1)
      = { Features := [], AIC := FVal.posInf, MSE := 0 } :=
  ⟨by decide,
    runWorker_sentinel (fun _ => ((0 : ℚ), FVal.nan)) (generateCombinations 2 1) (by decide)⟩

/-! ## Claim C9 -/

/-- C9: the running best is updated only on a strictly smaller AIC, so a
subset enumerated later whose AIC equals the best AIC reached on the
earlier subsets leaves the worker's result unchanged — first-seen wins
ties. -/
theorem runWorker_tie_keeps_first [LinearOrder α] [Zero α]
    (fitFn : List ℕ → α × FVal α) (l : List (List ℕ)) (s : List ℕ)
    (h : (fitFn s).2 = (runWorker fitFn l).AIC) :
    runWorker fitFn (l ++ [s]) = runWorker fitFn l := by
  rw [runWorker, List.foldl_append, List.foldl_cons, List.foldl_nil]
  show workerStep fitFn (runWorker fitFn l) s = runWorker fitFn l
  rw [workerStep]
  simp [h, flt_irrefl]

/-- Witness for C9: with both size-1 subsets fitting to the same AIC,
the worker keeps the first one. -/
theorem runWorker_tie_keeps_first_witness :
    ((fun _ : List ℕ => ((1 : ℚ), FVal.fin (5 : ℚ))) [1]).2
      = (runWorker (fun _ : List ℕ => ((1 : ℚ), FVal.fin (5 : ℚ))) [[0]]).AIC ∧
    runWorker (fun _ : List ℕ => ((1 : ℚ), FVal.fin (5 : ℚ))) ([[0]] ++ [[1]])
      = runWorker (fun _ : List ℕ => ((1 : ℚ), FVal.fin (5 : ℚ))) [[0]] :=
  ⟨by decide,
    runWorker_tie_keeps_first (fun _ => ((1 : ℚ), FVal.fin 5)) [[0]] [1] (by decide)⟩

/-! ## Claim C3 -/

/-- A concrete pair of worker results with distinct finite AIC values. -/
def arrivalsEx : List (result ℚ) :=
  [{ Features := [0], AIC := FVal.fin 10, MSE := 1 },
   { Features := [1], AIC := FVal.fin 5, MSE := 1 }]

/-- Counterexample to C3: the aggregation loop of `main` prints every
arriving per-size result; on two results it reports two entries and
never a single minimum-AIC one. -/
theorem coordinator_no_single_best :
    (coordinatorReport arrivalsEx).length = 2 ∧
    ∀ b : result ℚ, coordinatorReport arrivalsEx ≠ [b] := by
  refine ⟨rfl, ?_⟩
  intro b h
  have h2 := congrArg List.length h
  simp [coordinatorReport, arrivalsEx] at h2

/-- C3 as amended: the coordinator reports exactly the arrival sequence
of per-size results, computing no single global best; the minimum-AIC
entry is among the reported results but is not singled out. -/
theorem coordinator_reports_arrivals [LinearOrder α] (arrivals : List (result α)) :
    coordinatorReport arrivals = arrivals ∧
    (arrivals ≠ [] → ∃ r ∈ coordinatorReport arrivals,
      ∀ q ∈ coordinatorReport arrivals, flt q.AIC r.AIC = false) := by
  refine ⟨rfl, fun h => ?_⟩
  obtain ⟨a, ha, hmin⟩ :=
    exists_flt_minimal (arrivals.map (fun r => r.AIC)) (by simpa using h)
  rw [List.mem_map] at ha
  obtain ⟨r, hr, rfl⟩ := ha
  exact ⟨r, hr, fun q hq => hmin q.AIC (List.mem_map_of_mem _ hq)⟩

/-- Witness for the amended C3 on the concrete arrival list. -/
theorem coordinator_reports_arrivals_witness :
    arrivalsEx ≠ [] ∧ ∃ r ∈ coordinatorReport arrivalsEx,
      ∀ q ∈ coordinatorReport arrivalsEx, flt q.AIC r.AIC = false :=
  ⟨by decide, (coordinator_reports_arrivals arrivalsEx).2 (by decide)⟩

/-! ## Claim C6 -/

/-- Counterexample to C6: a legal scheduling of the two-worker skeleton
in which the coordinator receives worker 0's result before worker 1 has
completed, refuting the barrier-aggregation property. -/
theorem coordinator_not_barrier :
    ValidTrace 2 [Event.transfer 0, Event.done 0, Event.transfer 1, Event.done 1,
      Event.closeCh] ∧
    ¬ BarrierAggregation 2 [Event.transfer 0, Event.done 0, Event.transfer 1,
      Event.done 1, Event.closeCh] := by
  constructor
  · unfold ValidTrace
    decide
  · unfold BarrierAggregation
    decide

/-- C6 as amended: in every legal execution the coordinator consumes each
worker's result at the unbuffered-channel rendezvous before that worker
signals completion (and before the results channel is closed), so results
are consumed one at a time as they arrive and no execution satisfies the
barrier property. -/
theorem coordinator_streaming (m : ℕ) (t : List Event) (h : ValidTrace m t)
    (hm : 1 ≤ m) :
    (∀ i < m, t.indexOf (Event.transfer i) < t.indexOf (Event.done i) ∧
      t.indexOf (Event.transfer i) < t.indexOf Event.closeCh) ∧
    ¬ BarrierAggregation m t := by
  obtain ⟨-, -, -, h4, h5⟩ := h
  refine ⟨fun i hi => ⟨h4 i hi, lt_trans (h4 i hi) (h5 i hi)⟩, fun hb => ?_⟩
  have h1 := hb 0 hm 0 hm
  have h2 := h4 0 hm
  omega

/-- Witness for the amended C6 on the concrete two-worker trace. -/
theorem coordinator_streaming_witness :
    ValidTrace 2 [Event.transfer 0, Event.done 0, Event.transfer 1, Event.done 1,
      Event.closeCh] ∧ 1 ≤ 2 ∧
    ((∀ i < 2, ([Event.transfer 0, Event.done 0, Event.transfer 1, Event.done 1,
        Event.closeCh].indexOf (Event.transfer i)
        < [Event.transfer 0, Event.done 0, Event.transfer 1, Event.done 1,
          Event.closeCh].indexOf (Event.done i)) ∧
      ([Event.transfer 0, Event.done 0, Event.transfer 1, Event.done 1,
        Event.closeCh].indexOf (Event.transfer i)
        < [Event.transfer 0, Event.done 0, Event.transfer 1, Event.done 1,
          Event.closeCh].indexOf Event.closeCh)) ∧
    ¬ BarrierAggregation 2 [Event.transfer 0, Event.done 0, Event.transfer 1,
      Event.done 1, Event.closeCh]) :=
  ⟨by unfold ValidTrace; decide, by decide,
    coordinator_streaming 2 _ (by unfold ValidTrace; decide) (by decide)⟩

/-! ## Claim C7 -/

/-- C7: the fit never fails, and under the float semantics of
`math.Log` the returned AIC is `-Inf` exactly when the returned MSE is
exactly 0; `-Inf` compares below every finite AIC and below `+Inf`, so
it is the best possible score for the worker's strict `<` comparison. -/
theorem fitModel_degenerate [LinearOrderedField α] (log : α → α) (predict : List α → α)
    (y : List α) (features : List ℕ) (data : List (List α)) (_hf : features ≠ []) :
    ((fitModel log predict y features data).2 = FVal.negInf ↔
      (fitModel log predict y features data).1 = 0) ∧
    (∀ x : α, flt FVal.negInf (FVal.fin x) = true) ∧
    flt (FVal.negInf : FVal α) FVal.posInf = true := by
  refine ⟨?_, fun x => rfl, rfl⟩
  simp only [fitModel]
  split_ifs with h1 h2
  · exact iff_of_true rfl h1
  · exact iff_of_false (by simp) h1
  · exact iff_of_false (by simp) h1

/-- Witness for C7: a one-row dataset whose single feature predicts the
response exactly, so MSE computes to 0 and the AIC is `-Inf`. -/
theorem fitModel_degenerate_witness :
    ([0] : List ℕ) ≠ [] ∧
    (((fitModel (id : ℚ → ℚ) (fun _ => 3) [3] [0] [[1]]).2 = FVal.negInf ↔
      (fitModel (id : ℚ → ℚ) (fun _ => 3) [3] [0] [[1]]).1 = 0) ∧
     (∀ x : ℚ, flt FVal.negInf (FVal.fin x) = true) ∧
     flt (FVal.negInf : FVal ℚ) FVal.posInf = true) ∧
    (fitModel (id : ℚ → ℚ) (fun _ => 3) [3] [0] [[1]]).1 = 0 ∧
    (fitModel (id : ℚ → ℚ) (fun _ => 3) [3] [0] [[1]]).2 = FVal.negInf :=
  ⟨by decide, fitModel_degenerate id (fun _ => 3) [3] [0] [[1]] (by decide),
    by norm_num [fitModel, List.getD], by norm_num [fitModel, List.getD]⟩

/-- Helper: whenever the computed MSE is strictly positive, the returned
AIC is the finite value `len(xs)·log(mse) + 2·len(features)`, and
`len(xs) = len(features)`. -/
theorem fitModel_aic_fin [LinearOrderedField α] (log : α → α) (predict : List α → α)
    (y : List α) (features : List ℕ) (data : List (List α))
    (h : 0 < (fitModel log predict y features data).1) :
    (fitModel log predict y features data).2
      = FVal.fin ((features.length : α) * log (fitModel log predict y features data).1
          + 2 * (features.length : α)) := by
  simp only [fitModel] at h ⊢
  split_ifs with h1 h2
  · exact absurd h1 (ne_of_gt h)
  · exact absurd h2 (not_lt_of_gt h)
  · simp [List.length_map]

/-! ## Claim C1 -/

/-- Claim C1 fails on the code: on a 3-row dataset with the single
feature 0, the residual sum of `fitModel` has exactly ONE term, pairing
the first response `y₀ = 7` with the entire data column `[10, 20, 30]`,
and the divisor is the number of features, not the number of rows.  In
particular a predictor answering 7 (as a least-squares fit of the single
transposed point can) makes the code's MSE equal 0, while the MSE the
claim specifies — `mseSpec` over the 3 rows with fitted values `b·xᵢ` —
is at least `36/7 > 0` for every coefficient `b`, so no choice of the
library model makes the two agree at this input. -/
theorem fitModel_transposed_mse (log : ℝ → ℝ) (predict : List ℝ → ℝ) :
    (fitModel log predict [7, 8, 9] [0] [[10, 7], [20, 8], [30, 9]]).1
      = (7 - predict [10, 20, 30]) ^ 2 ∧
    (fitModel log (fun _ => 7) [7, 8, 9] [0] [[10, 7], [20, 8], [30, 9]]).1 = 0 ∧
    (∀ b : ℝ, 36 / 7 ≤ mseSpec [7, 8, 9] ([10, 20, 30].map (fun x => b * x))) ∧
    (0 : ℝ) < 36 / 7 := by
  refine ⟨?_, ?_, ?_, by norm_num⟩
  · simp [fitModel, List.getD]
  · norm_num [fitModel, List.getD]
  · intro b
    have he : mseSpec [7, 8, 9] ([10, 20, 30].map (fun x => b * x))
        = ((7 - 10 * b) ^ 2 + (8 - 20 * b) ^ 2 + (9 - 30 * b) ^ 2) / 3 := by
      simp [mseSpec]
      ring
    rw [he, div_le_div_iff₀ (by norm_num) (by norm_num)]
    nlinarith [sq_nonneg (14 * b - 5)]

/-! ## Claim C2 -/

/-- Claim C2 fails on the code: at the same 3-row, 1-feature input (with
the library model answering 0, so the code's MSE is 49 > 0) the returned
AIC multiplies `ln(MSE)` by `len(xs) = k = 1`, the number of features,
whereas the claim prescribes the factor `N = 3`, the number of rows; the
two values differ because `ln 49 ≠ 0`. -/
theorem fitModel_aic_feature_count :
    (fitModel Real.log (fun _ => 0) [7, 8, 9] [0] [[10, 7], [20, 8], [30, 9]]).1 = 49 ∧
    (fitModel Real.log (fun _ => 0) [7, 8, 9] [0] [[10, 7], [20, 8], [30, 9]]).2
      = FVal.fin ((1 : ℝ) * Real.log 49 + 2 * 1) ∧
    (1 : ℝ) * Real.log 49 + 2 * 1 ≠ (3 : ℝ) * Real.log 49 + 2 * 1 := by
  have h1 : (fitModel Real.log (fun _ => 0) [7, 8, 9] [0] [[10, 7], [20, 8], [30, 9]]).1
      = 49 := by
    norm_num [fitModel, List.getD]
  refine ⟨h1, ?_, ?_⟩
  · have h2 := fitModel_aic_fin Real.log (fun _ => 0) [7, 8, 9] [0]
      [[10, 7], [20, 8], [30, 9]] (by rw [h1]; norm_num)
    rw [h1] at h2
    simpa using h2
  · have hlog : 0 < Real.log 49 := Real.log_pos (by norm_num)
    intro h
    linarith

/-! ## Claim C5 -/

/-- Claim C5 fails on the code: on a dataset whose explanatory columns 0
and 1 are identical (a rank-deficient design), `fitModel` does not fail —
it has no error result at all, `r.Run()`'s error being discarded — and
returns an MSE of at least 1 with a finite AIC for every possible
library model; feeding that fit to the worker's loop body updates the
running best, so the singular subset is not skipped and enters the
running-best comparison. -/
theorem fitModel_singular_no_error [LinearOrderedField α] (log : α → α)
    (predict : List α → α) :
    1 ≤ (fitModel log predict [5, 7] [0, 1] [[1, 1, 5], [2, 2, 7]]).1 ∧
    (∃ a : α, (fitModel log predict [5, 7] [0, 1] [[1, 1, 5], [2, 2, 7]]).2 = FVal.fin a) ∧
    workerStep (fun s => fitModel log predict [5, 7] s [[1, 1, 5], [2, 2, 7]])
        { Features := [], AIC := FVal.posInf, MSE := 0 } [0, 1]
      ≠ { Features := [], AIC := FVal.posInf, MSE := 0 } := by
  have hmse : (fitModel log predict [5, 7] [0, 1] [[1, 1, 5], [2, 2, 7]]).1
      = ((5 - predict [1, 2]) ^ 2 + (7 - predict [1, 2]) ^ 2) / 2 := by
    simp [fitModel, List.getD]
  have h1 : (1 : α) ≤ ((5 - predict [1, 2]) ^ 2 + (7 - predict [1, 2]) ^ 2) / 2 := by
    rw [le_div_iff₀ (by norm_num)]
    nlinarith [sq_nonneg (predict [1, 2] - 6)]
  have hpos : 0 < (fitModel log predict [5, 7] [0, 1] [[1, 1, 5], [2, 2, 7]]).1 := by
    rw [hmse]; linarith
  have haic := fitModel_aic_fin log predict [5, 7] [0, 1] [[1, 1, 5], [2, 2, 7]] hpos
  refine ⟨by rw [hmse]; exact h1, ⟨_, haic⟩, ?_⟩
  intro hEq
  rw [workerStep] at hEq
  rw [haic] at hEq
  simp [flt] at hEq
